import Mathlib

/-!
Verification of the emotion-stabilizer component (`EmotionAnalyzer.analyze_emotion`
in `emotion_analyzer.py`) of the Emotion-Detection-System repository.

Modelling choices (shallow embedding):
* Emotion labels are a closed inductive type with the seven labels of
  `self.emotions`, in source order.
* Raw classifier scores are rationals (the Python side uses floats on the
  0–100 scale; the claims under study are order/arithmetic structural facts,
  not float-rounding facts).
* The external classifier (`DeepFace.analyze`) is an oracle: each of the two
  attempts is given to the function as an optional raw score mapping
  (`none` = that attempt raised and was logged/skipped).  A raw mapping is
  `Emotion → Option ℚ` since the Python code reads it with `r.get(emotion, 0)`.
* The analyzer object is a structure holding the four instance attributes
  set in `__init__`; `analyze_emotion` threads it explicitly.
* Python `dict`s keyed by emotion are association lists in insertion order
  (Python dicts preserve insertion order, and `max` iterates in that order).
* Python `max(..., key=...)` keeps the first item attaining the maximum
  (it replaces the current best only on a strictly greater key); `maxPair`
  mirrors this.
* `collections.Counter(...).most_common(1)` counts occurrences, with keys in
  first-encounter order, and `heapq.nlargest` is stable, so the winner is the
  first-encountered key with the maximal count; `mostCommon` mirrors this.
* The statements `avg_emotions[smoothed_emotion]` (dict indexing) and
  `max` on an empty dict can raise; every such potentially-raising step is
  modelled with `Option`, and the outer `except` of `analyze_emotion` is the
  `none` case of `analyzeInner`, mapped to `('neutral', 0.1)`.
* Pixel contents are not modelled (they are consumed only by the oracle
  classifier); an image is its shape, which is what validation and resizing
  inspect.
-/

/-- The seven emotion labels of `self.emotions`, in source order. -/
inductive Emotion : Type
  | angry | disgust | fear | happy | sad | surprise | neutral
  deriving DecidableEq, Repr, Fintype

open Emotion

/-- The list `self.emotions = ['angry', 'disgust', 'fear', 'happy', 'sad', 'surprise', 'neutral']`. -/
def stdEmotions : List Emotion :=
  [angry, disgust, fear, happy, sad, surprise, neutral]

/-- The table `self.emotion_weights`, in the source dict insertion order. -/
def stdWeights : List (Emotion × ℚ) :=
  [(sad, 12/10), (disgust, 12/10), (angry, 11/10), (fear, 11/10),
   (happy, 9/10), (neutral, 8/10), (surprise, 1)]

/-- The analyzer's instance attributes, as set in `EmotionAnalyzer.__init__`
and carried by the object afterwards. -/
structure EmotionAnalyzer where
  emotions : List Emotion
  previous_emotions : List Emotion
  smooth_window : Nat
  emotion_weights : List (Emotion × ℚ)
  deriving DecidableEq, Repr

/-- The constructor `EmotionAnalyzer.__init__`. -/
def EmotionAnalyzer.init : EmotionAnalyzer :=
  { emotions := stdEmotions
    previous_emotions := []
    smooth_window := 2
    emotion_weights := stdWeights }

/-- A face image, reduced to its numpy shape `(height, width, channels)`;
pixel contents are consumed only by the oracle classifier. -/
structure Image where
  height : Nat
  width : Nat
  channels : Nat
  deriving DecidableEq, Repr

/-- numpy's `size`: the product of the shape. -/
def Image.size (im : Image) : Nat :=
  im.height * im.width * im.channels

/-- The emotion mapping of one successful classifier attempt
(`result[0]['emotion']`); read with a 0 default, hence `Option`. -/
def RawResult : Type := Emotion → Option ℚ

/-- Reads `r.get(emotion, 0)`. -/
def getScore (r : RawResult) (e : Emotion) : ℚ :=
  (r e).getD 0

/-- Association-list lookup, the model of Python dict indexing / `.get`. -/
def dictGet (l : List (Emotion × ℚ)) (e : Emotion) : Option ℚ :=
  match l with
  | [] => none
  | p :: ps => if p.1 = e then some p.2 else dictGet ps e

/-- Reads `self.emotion_weights.get(emo, 1.0)`. -/
def weightOf (w : List (Emotion × ℚ)) (e : Emotion) : ℚ :=
  (dictGet w e).getD 1

/-- Computes `sum(values) / len(values)` for `values = [r.get(emotion, 0) for r in results]`. -/
def avgVal (results : List RawResult) (e : Emotion) : ℚ :=
  (results.map (fun r => getScore r e)).sum / (results.length : ℚ)

/-- The `avg_emotions` dict: one entry per label of `self.emotions`,
in that iteration order. -/
def avgEmotions (emos : List Emotion) (results : List RawResult) :
    List (Emotion × ℚ) :=
  emos.map (fun e => (e, avgVal results e))

/-- The `weighted_emotions` dict comprehension (preserves insertion order). -/
def weightedEmotions (w : List (Emotion × ℚ)) (avg : List (Emotion × ℚ)) :
    List (Emotion × ℚ) :=
  avg.map (fun p => (p.1, p.2 * weightOf w p.1))

/-- Accumulator loop of Python `max(items, key=value)`: the running best is
replaced only when a strictly greater value appears, so the first maximum
encountered wins. -/
def maxPairAux {β : Type} [LinearOrder β] (best : Emotion × β) :
    List (Emotion × β) → Emotion × β
  | [] => best
  | x :: xs => maxPairAux (if best.2 < x.2 then x else best) xs

/-- Python `max(d.items(), key=lambda x: x[1])`; `none` models the
`ValueError` on an empty dict. -/
def maxPair {β : Type} [LinearOrder β] :
    List (Emotion × β) → Option (Emotion × β)
  | [] => none
  | p :: ps => some (maxPairAux p ps)

/-- Runs `self.previous_emotions.append(d)` followed by
`if len(self.previous_emotions) > self.smooth_window: self.previous_emotions.pop(0)`. -/
def pushHistory (w : Nat) (hist : List Emotion) (d : Emotion) : List Emotion :=
  let h := hist ++ [d]
  if w < h.length then h.tail else h

/-- Keys of `Counter(l)` in first-encounter order. -/
def firstDedup : List Emotion → List Emotion
  | [] => []
  | x :: xs => x :: (firstDedup xs).filter (fun y => y ≠ x)

/-- Computes `Counter(l).most_common(1)[0][0]`: the first-encountered element with
maximal multiplicity (`heapq.nlargest` is stable); `none` iff `l` is empty. -/
def mostCommon (l : List Emotion) : Option Emotion :=
  (maxPair ((firstDedup l).map (fun e => (e, l.count e)))).map Prod.fst

/-- The smoothing block: `if self.previous_emotions:` picks the most common
label of the (already updated) history, else falls back to the dominant
label; either way the confidence is `avg_emotions[label] / 100`, whose dict
indexing can raise `KeyError` (the `none` case). -/
def smoothedResult (avg : List (Emotion × ℚ)) (dom : Emotion)
    (hist : List Emotion) : Option (Emotion × ℚ) :=
  match mostCommon hist with
  | some se => (dictGet avg se).map (fun c => (se, c / 100))
  | none => (dictGet avg dom).map (fun c => (dom, c / 100))

/-- The "additional check for subtle emotions": if the smoothed label is
`neutral` with confidence below 0.6 and the non-neutral part of
`avg_emotions` is non-empty, return its maximum when it exceeds 20. -/
def neutralOverride (avg : List (Emotion × ℚ)) (sp : Emotion × ℚ) :
    Emotion × ℚ :=
  if sp.1 = neutral ∧ sp.2 < 6/10 then
    match maxPair (avg.filter (fun p => p.1 ≠ neutral)) with
    | some nxt => if nxt.2 > 20 then (nxt.1, nxt.2 / 100) else sp
    | none => sp
  else sp

/-- Runs `cv2.resize(face_img, (96, 96))` guarded by
`face_img.shape[0] < 96 or face_img.shape[1] < 96`. -/
def resizeMin (im : Image) : Image :=
  if im.height < 96 ∨ im.width < 96 then
    { height := 96, width := 96, channels := im.channels }
  else im

/-- Models `enhance_contrast`: CLAHE on the lightness channel; it rewrites pixel
values (not modelled) and preserves the shape, which is all the downstream
code inspects. -/
def enhanceContrast (im : Image) : Image := im

/-- The body of `analyze_emotion` inside its outer `try`, with the state
threaded explicitly.  `(some r, st)` is a normal `return r` with final
attribute state `st`; `(none, st)` is an uncaught inner exception reaching
the outer handler with the attributes already mutated to `st`. -/
def analyzeInner (st : EmotionAnalyzer) (img : Option Image)
    (a1 a2 : Option RawResult) :
    Option (Emotion × ℚ) × EmotionAnalyzer :=
  match img with
  | none => (some (neutral, 0), st)
  | some im =>
    if im.size = 0 then (some (neutral, 0), st)
    else
      let _processed := enhanceContrast (resizeMin im)
      let results := a1.toList ++ a2.toList
      if results.isEmpty then (some (neutral, 0), st)
      else
        let avg := avgEmotions st.emotions results
        let weighted := weightedEmotions st.emotion_weights avg
        match maxPair weighted with
        | none => (none, st)
        | some dom =>
          let h2 := pushHistory st.smooth_window st.previous_emotions dom.1
          let st2 := { st with previous_emotions := h2 }
          match smoothedResult avg dom.1 st2.previous_emotions with
          | none => (none, st2)
          | some sp => (some (neutralOverride avg sp), st2)

/-- The full `EmotionAnalyzer.analyze_emotion`: the inner pipeline with the outer
`except Exception` handler mapping any escaped error to `('neutral', 0.1)`. -/
def analyzeEmotion (st : EmotionAnalyzer) (img : Option Image)
    (a1 a2 : Option RawResult) : (Emotion × ℚ) × EmotionAnalyzer :=
  match analyzeInner st img a1 a2 with
  | (some r, st2) => (r, st2)
  | (none, st2) => ((neutral, 1/10), st2)

/-- The per-frame candidate dominant label of a call, when the call gets as
far as computing one: the first maximum of the weighted averaged scores. -/
def candidateOf (st : EmotionAnalyzer) (img : Option Image)
    (a1 a2 : Option RawResult) : Option Emotion :=
  match img with
  | none => none
  | some im =>
    if im.size = 0 then none
    else
      let results := a1.toList ++ a2.toList
      if results.isEmpty then none
      else
        (maxPair (weightedEmotions st.emotion_weights
          (avgEmotions st.emotions results))).map Prod.fst

/-- Scores of a (successful) classifier attempt lie on the 0–100 scale. -/
def ScoreOk (a : Option RawResult) : Prop :=
  ∀ r, a = some r → ∀ e, 0 ≤ getScore r e ∧ getScore r e ≤ 100

/-! ### Basic lemmas about the embedded operations -/

theorem mem_stdEmotions (e : Emotion) : e ∈ stdEmotions := by
  cases e <;> simp [stdEmotions]

theorem dictGet_map_self (f : Emotion → ℚ) (emos : List Emotion) (e : Emotion)
    (v : ℚ) (h : dictGet (emos.map (fun x => (x, f x))) e = some v) :
    v = f e := by
  induction emos with
  | nil => simp [dictGet] at h
  | cons x xs ih =>
    simp only [List.map_cons, dictGet] at h
    by_cases hx : x = e
    · subst hx
      rw [if_pos rfl] at h
      exact (Option.some.inj h).symm
    · rw [if_neg hx] at h
      exact ih h

theorem mem_avgEmotions (emos : List Emotion) (results : List RawResult)
    (p : Emotion × ℚ) (h : p ∈ avgEmotions emos results) :
    p.2 = avgVal results p.1 := by
  simp only [avgEmotions, List.mem_map] at h
  obtain ⟨e, _, he⟩ := h
  subst he
  rfl

theorem maxPairAux_eq_or_mem {β : Type} [LinearOrder β] (b : Emotion × β)
    (l : List (Emotion × β)) : maxPairAux b l = b ∨ maxPairAux b l ∈ l := by
  induction l generalizing b with
  | nil => exact Or.inl rfl
  | cons x xs ih =>
    simp only [maxPairAux]
    by_cases hx : b.2 < x.2
    · rw [if_pos hx]
      rcases ih x with h | h
      · exact Or.inr (by rw [h]; exact List.mem_cons_self x xs)
      · exact Or.inr (List.mem_cons_of_mem x h)
    · rw [if_neg hx]
      rcases ih b with h | h
      · exact Or.inl h
      · exact Or.inr (List.mem_cons_of_mem x h)

theorem le_maxPairAux {β : Type} [LinearOrder β] (b : Emotion × β)
    (l : List (Emotion × β)) : b.2 ≤ (maxPairAux b l).2 := by
  induction l generalizing b with
  | nil => exact le_refl _
  | cons x xs ih =>
    simp only [maxPairAux]
    by_cases hx : b.2 < x.2
    · rw [if_pos hx]
      exact le_of_lt (lt_of_lt_of_le hx (ih x))
    · rw [if_neg hx]
      exact ih b

theorem mem_le_maxPairAux {β : Type} [LinearOrder β] (b : Emotion × β)
    (l : List (Emotion × β)) (x : Emotion × β) (hx : x ∈ l) :
    x.2 ≤ (maxPairAux b l).2 := by
  induction l generalizing b with
  | nil => cases hx
  | cons y ys ih =>
    simp only [maxPairAux]
    rcases List.mem_cons.mp hx with rfl | hmem
    · by_cases hb : b.2 < x.2
      · rw [if_pos hb]
        exact le_maxPairAux x ys
      · rw [if_neg hb]
        exact le_trans (le_of_not_lt hb) (le_maxPairAux b ys)
    · by_cases hb : b.2 < y.2
      · rw [if_pos hb]
        exact ih y hmem
      · rw [if_neg hb]
        exact ih b hmem

theorem maxPairAux_first {β : Type} [LinearOrder β] (b : Emotion × β)
    (l : List (Emotion × β)) :
    ∃ pre post, b :: l = pre ++ maxPairAux b l :: post ∧
      ∀ y ∈ pre, y.2 < (maxPairAux b l).2 := by
  induction l generalizing b with
  | nil => exact ⟨[], [], rfl, by simp⟩
  | cons x xs ih =>
    simp only [maxPairAux]
    by_cases hb : b.2 < x.2
    · rw [if_pos hb]
      obtain ⟨pre, post, heq, hlt⟩ := ih x
      refine ⟨b :: pre, post, ?_, ?_⟩
      · simpa using heq
      · intro y hy
        rcases List.mem_cons.mp hy with rfl | hmem
        · exact lt_of_lt_of_le hb (le_maxPairAux x xs)
        · exact hlt y hmem
    · rw [if_neg hb]
      set r := maxPairAux b xs with hr
      obtain ⟨pre, post, heq, hlt⟩ := ih b
      cases pre with
      | nil =>
        simp only [List.nil_append] at heq
        obtain ⟨hbr, -⟩ := List.cons.inj heq
        refine ⟨[], x :: xs, ?_, by simp⟩
        rw [List.nil_append, hr, ← hbr]
      | cons p ps =>
        simp only [List.cons_append, List.cons.injEq] at heq
        obtain ⟨hpb, hxs⟩ := heq
        have hbmax : b.2 < r.2 := by
          have h2 := hlt p (List.mem_cons_self p ps)
          rw [hpb]
          exact h2
        refine ⟨b :: x :: ps, post, ?_, ?_⟩
        · rw [List.cons_append, List.cons_append, hr, ← hxs]
        · intro y hy
          rcases List.mem_cons.mp hy with rfl | hy2
          · exact hbmax
          · rcases List.mem_cons.mp hy2 with rfl | hy3
            · exact lt_of_le_of_lt (le_of_not_lt hb) hbmax
            · exact hlt y (List.mem_cons_of_mem p hy3)

theorem maxPair_mem {β : Type} [LinearOrder β] (l : List (Emotion × β))
    (q : Emotion × β) (h : maxPair l = some q) : q ∈ l := by
  cases l with
  | nil => cases h
  | cons p ps =>
    simp only [maxPair] at h
    rcases maxPairAux_eq_or_mem p ps with h2 | h2
    · rw [← Option.some.inj h, h2]
      exact List.mem_cons_self p ps
    · rw [← Option.some.inj h]
      exact List.mem_cons_of_mem p h2

theorem maxPair_ge {β : Type} [LinearOrder β] (l : List (Emotion × β))
    (q : Emotion × β) (h : maxPair l = some q) : ∀ x ∈ l, x.2 ≤ q.2 := by
  cases l with
  | nil => cases h
  | cons p ps =>
    simp only [maxPair] at h
    intro x hx
    rw [← Option.some.inj h]
    rcases List.mem_cons.mp hx with rfl | hmem
    · exact le_maxPairAux x ps
    · exact mem_le_maxPairAux p ps x hmem

theorem maxPair_first {β : Type} [LinearOrder β] (l : List (Emotion × β))
    (q : Emotion × β) (h : maxPair l = some q) :
    ∃ pre post, l = pre ++ q :: post ∧ ∀ y ∈ pre, y.2 < q.2 := by
  cases l with
  | nil => cases h
  | cons p ps =>
    simp only [maxPair] at h
    rw [← Option.some.inj h]
    exact maxPairAux_first p ps

theorem maxPair_isSome {β : Type} [LinearOrder β] (l : List (Emotion × β))
    (hl : l ≠ []) : ∃ q, maxPair l = some q := by
  cases l with
  | nil => exact absurd rfl hl
  | cons p ps => exact ⟨maxPairAux p ps, rfl⟩

theorem map_split {α β : Type} (f : α → β) (l : List α) (pre post : List β)
    (q : β) (h : l.map f = pre ++ q :: post) :
    ∃ pre1 m post1, l = pre1 ++ m :: post1 ∧ pre1.map f = pre ∧ f m = q := by
  induction l generalizing pre with
  | nil =>
    rw [List.map_nil] at h
    exact absurd h.symm (List.append_ne_nil_of_right_ne_nil pre (List.cons_ne_nil q post))
  | cons x xs ih =>
    cases pre with
    | nil =>
      simp only [List.map_cons, List.nil_append, List.cons.injEq] at h
      exact ⟨[], x, xs, by simp, rfl, h.1⟩
    | cons p ps =>
      simp only [List.map_cons, List.cons_append, List.cons.injEq] at h
      obtain ⟨hfx, hrest⟩ := h
      obtain ⟨pre1, m, post1, h1, h2, h3⟩ := ih ps hrest
      exact ⟨x :: pre1, m, post1, by simp [h1], by simp [h2, hfx], h3⟩

theorem pushHistory_length_le (w : Nat) (hist : List Emotion) (d : Emotion)
    (h : hist.length ≤ w) : (pushHistory w hist d).length ≤ w := by
  unfold pushHistory
  by_cases hw : w < (hist ++ [d]).length
  · rw [if_pos hw]
    simp only [List.length_tail, List.length_append, List.length_cons,
      List.length_nil] at hw ⊢
    omega
  · rw [if_neg hw]
    simp only [List.length_append, List.length_cons, List.length_nil] at hw ⊢
    omega

theorem pushHistory_full (w : Nat) (hist : List Emotion) (d : Emotion)
    (hne : hist ≠ []) (h : hist.length = w) :
    pushHistory w hist d = hist.tail ++ [d] := by
  unfold pushHistory
  rw [if_pos (by simp [h])]
  cases hist with
  | nil => exact absurd rfl hne
  | cons x xs => simp

theorem mem_firstDedup (x : Emotion) (l : List Emotion) :
    x ∈ firstDedup l ↔ x ∈ l := by
  induction l with
  | nil => simp [firstDedup]
  | cons y ys ih =>
    simp only [firstDedup, List.mem_cons, List.mem_filter,
      decide_eq_true_eq]
    constructor
    · rintro (rfl | ⟨hx, -⟩)
      · exact Or.inl rfl
      · exact Or.inr (ih.mp hx)
    · rintro (rfl | hx)
      · exact Or.inl rfl
      · by_cases hxy : x = y
        · exact Or.inl hxy
        · exact Or.inr ⟨ih.mpr hx, by simpa using hxy⟩

theorem firstDedup_ne_nil (l : List Emotion) (hl : l ≠ []) :
    firstDedup l ≠ [] := by
  cases l with
  | nil => exact absurd rfl hl
  | cons x xs => simp [firstDedup]

theorem mostCommon_mem (l : List Emotion) (m : Emotion)
    (h : mostCommon l = some m) : m ∈ l := by
  simp only [mostCommon, Option.map_eq_some'] at h
  obtain ⟨q, hq, hq1⟩ := h
  have hmem := maxPair_mem _ q hq
  simp only [List.mem_map] at hmem
  obtain ⟨e, he, heq⟩ := hmem
  rw [← hq1, ← heq]
  exact (mem_firstDedup e l).mp he

theorem mostCommon_count_ge (l : List Emotion) (m : Emotion)
    (h : mostCommon l = some m) : ∀ x ∈ l, l.count x ≤ l.count m := by
  simp only [mostCommon, Option.map_eq_some'] at h
  obtain ⟨q, hq, hq1⟩ := h
  have hge := maxPair_ge _ q hq
  intro x hx
  have hxm : (x, l.count x) ∈ (firstDedup l).map (fun e => (e, l.count e)) :=
    List.mem_map_of_mem _ ((mem_firstDedup x l).mpr hx)
  have hxle := hge _ hxm
  have hqmem := maxPair_mem _ q hq
  simp only [List.mem_map] at hqmem
  obtain ⟨e, _, heq⟩ := hqmem
  have he1 : q.1 = e := by rw [← heq]
  have he2 : q.2 = l.count e := by rw [← heq]
  rw [← hq1, he1]
  rw [he2] at hxle
  exact hxle

theorem mostCommon_isSome (l : List Emotion) (hl : l ≠ []) :
    ∃ m, mostCommon l = some m := by
  have h1 : (firstDedup l).map (fun e => (e, l.count e)) ≠ [] := by
    simp [firstDedup_ne_nil l hl]
  obtain ⟨q, hq⟩ := maxPair_isSome _ h1
  exact ⟨q.1, by simp [mostCommon, hq]⟩

theorem mostCommon_first (l : List Emotion) (m : Emotion)
    (h : mostCommon l = some m) :
    ∃ pre post, firstDedup l = pre ++ m :: post ∧
      ∀ y ∈ pre, l.count y < l.count m := by
  simp only [mostCommon, Option.map_eq_some'] at h
  obtain ⟨q, hq, hq1⟩ := h
  obtain ⟨pre, post, heq, hlt⟩ := maxPair_first _ q hq
  obtain ⟨pre1, e, post1, hsplit, hmap, hfe⟩ := map_split _ _ _ _ _ heq
  have he1 : q.1 = e := by rw [← hfe]
  have he2 : q.2 = l.count e := by rw [← hfe]
  have hme : m = e := by rw [← hq1, he1]
  refine ⟨pre1, post1, ?_, ?_⟩
  · rw [hsplit, hme]
  · intro y hy
    have hmem : (y, l.count y) ∈ pre := by
      rw [← hmap]
      exact List.mem_map_of_mem _ hy
    have hcount := hlt _ hmem
    rw [he2] at hcount
    rw [hme]
    exact hcount

theorem avgVal_nonneg (results : List RawResult)
    (h : ∀ r ∈ results, ∀ e, 0 ≤ getScore r e) (e : Emotion) :
    0 ≤ avgVal results e := by
  unfold avgVal
  apply div_nonneg
  · apply List.sum_nonneg
    intro x hx
    simp only [List.mem_map] at hx
    obtain ⟨r, hr, rfl⟩ := hx
    exact h r hr e
  · exact Nat.cast_nonneg _

theorem avgVal_le_100 (results : List RawResult) (hne : results ≠ [])
    (h : ∀ r ∈ results, ∀ e, getScore r e ≤ 100) (e : Emotion) :
    avgVal results e ≤ 100 := by
  unfold avgVal
  have hlen : 0 < (results.length : ℚ) := by
    exact_mod_cast List.length_pos.mpr hne
  rw [div_le_iff₀ hlen]
  have hsum : (results.map (fun r => getScore r e)).sum ≤
      (results.map (fun r => getScore r e)).length • (100 : ℚ) := by
    apply List.sum_le_card_nsmul
    intro x hx
    simp only [List.mem_map] at hx
    obtain ⟨r, hr, rfl⟩ := hx
    exact h r hr e
  rw [List.length_map, nsmul_eq_mul] at hsum
  linarith

theorem scoreOk_results (a1 a2 : Option RawResult) (h1 : ScoreOk a1)
    (h2 : ScoreOk a2) :
    ∀ r ∈ a1.toList ++ a2.toList, ∀ e, 0 ≤ getScore r e ∧ getScore r e ≤ 100 := by
  intro r hr
  rcases List.mem_append.mp hr with hm | hm
  · cases a1 with
    | none => simp [Option.toList] at hm
    | some r1 =>
      have hm2 : r = r1 := by simpa [Option.toList] using hm
      subst hm2
      exact h1 r rfl
  · cases a2 with
    | none => simp [Option.toList] at hm
    | some r2 =>
      have hm2 : r = r2 := by simpa [Option.toList] using hm
      subst hm2
      exact h2 r rfl

/-! ### Structural lemmas about `analyzeInner` -/

theorem analyzeInner_img_none (st : EmotionAnalyzer) (a1 a2 : Option RawResult) :
    analyzeInner st none a1 a2 = (some (neutral, 0), st) := rfl

theorem analyzeInner_img_empty (st : EmotionAnalyzer) (im : Image)
    (a1 a2 : Option RawResult) (h : im.size = 0) :
    analyzeInner st (some im) a1 a2 = (some (neutral, 0), st) := by
  simp [analyzeInner, h]

theorem analyzeInner_no_results (st : EmotionAnalyzer) (im : Image)
    (h : im.size ≠ 0) :
    analyzeInner st (some im) none none = (some (neutral, 0), st) := by
  simp [analyzeInner, h, Option.toList]

theorem analyzeInner_smooth (st : EmotionAnalyzer) (im : Image)
    (a1 a2 : Option RawResult) (hsz : ¬im.size = 0)
    (hres : ¬(a1.toList ++ a2.toList).isEmpty = true) (dom : Emotion × ℚ)
    (hdom : maxPair (weightedEmotions st.emotion_weights
      (avgEmotions st.emotions (a1.toList ++ a2.toList))) = some dom) :
    analyzeInner st (some im) a1 a2 =
      ((smoothedResult (avgEmotions st.emotions (a1.toList ++ a2.toList)) dom.1
          (pushHistory st.smooth_window st.previous_emotions dom.1)).map
        (neutralOverride (avgEmotions st.emotions (a1.toList ++ a2.toList))),
       { st with previous_emotions :=
          pushHistory st.smooth_window st.previous_emotions dom.1 }) := by
  simp only [analyzeInner, hsz, if_false, hres, hdom, ite_false]
  cases smoothedResult (avgEmotions st.emotions (a1.toList ++ a2.toList)) dom.1
      (pushHistory st.smooth_window st.previous_emotions dom.1) with
  | none => rfl
  | some sp => rfl

theorem analyzeInner_snd (st : EmotionAnalyzer) (img : Option Image)
    (a1 a2 : Option RawResult) :
    (analyzeInner st img a1 a2).2 =
      match candidateOf st img a1 a2 with
      | some d => { st with previous_emotions := pushHistory st.smooth_window st.previous_emotions d }
      | none => st := by
  cases img with
  | none => rfl
  | some im =>
    by_cases hsz : im.size = 0
    · simp [analyzeInner, candidateOf, hsz]
    · by_cases hres : (a1.toList ++ a2.toList).isEmpty = true
      · simp [analyzeInner, candidateOf, hsz, hres]
      · cases hdom : maxPair (weightedEmotions st.emotion_weights
            (avgEmotions st.emotions (a1.toList ++ a2.toList))) with
        | none => simp [analyzeInner, candidateOf, hsz, hres, hdom]
        | some dom =>
          rw [analyzeInner_smooth st im a1 a2 hsz hres dom hdom]
          simp [candidateOf, hsz, hres, hdom]

theorem analyzeEmotion_snd (st : EmotionAnalyzer) (img : Option Image)
    (a1 a2 : Option RawResult) :
    (analyzeEmotion st img a1 a2).2 = (analyzeInner st img a1 a2).2 := by
  unfold analyzeEmotion
  cases h : analyzeInner st img a1 a2 with
  | mk r st2 => cases r <;> rfl

theorem analyzeEmotion_preserves (st : EmotionAnalyzer) (img : Option Image)
    (a1 a2 : Option RawResult) :
    ((analyzeEmotion st img a1 a2).2).emotions = st.emotions ∧
    ((analyzeEmotion st img a1 a2).2).smooth_window = st.smooth_window ∧
    ((analyzeEmotion st img a1 a2).2).emotion_weights = st.emotion_weights := by
  rw [analyzeEmotion_snd, analyzeInner_snd]
  cases candidateOf st img a1 a2 <;> exact ⟨rfl, rfl, rfl⟩

theorem analyzeEmotion_history (st : EmotionAnalyzer) (img : Option Image)
    (a1 a2 : Option RawResult) :
    ((analyzeEmotion st img a1 a2).2).previous_emotions =
      match candidateOf st img a1 a2 with
      | some d => pushHistory st.smooth_window st.previous_emotions d
      | none => st.previous_emotions := by
  rw [analyzeEmotion_snd, analyzeInner_snd]
  cases candidateOf st img a1 a2 <;> rfl

theorem dictGet_avgEmotions_std (results : List RawResult) (e : Emotion) :
    dictGet (avgEmotions stdEmotions results) e = some (avgVal results e) := by
  cases e <;> rfl

theorem filter_avgEmotions_std (results : List RawResult) :
    (avgEmotions stdEmotions results).filter (fun p => p.1 ≠ neutral) =
      [angry, disgust, fear, happy, sad, surprise].map
        (fun e => (e, avgVal results e)) := by
  rfl

/-! ### Concrete inputs used by the witnesses -/

/-- A 96×96 BGR image. -/
def img96 : Image := { height := 96, width := 96, channels := 3 }

/-- An empty (size-0) image. -/
def imgEmpty : Image := { height := 0, width := 0, channels := 3 }

/-- A classifier response scoring 0 everywhere. -/
def rZero : RawResult := fun _ => some 0

/-- A classifier response dominated by `angry`. -/
def rAngry : RawResult := fun e =>
  match e with
  | angry => some 80
  | _ => some 0

/-- A classifier response dominated by `happy`. -/
def rHappy : RawResult := fun e =>
  match e with
  | happy => some 80
  | _ => some 0

/-- A classifier response dominated by `sad`. -/
def rSad : RawResult := fun e =>
  match e with
  | sad => some 80
  | _ => some 0

/-- An analyzer state whose label list and weight table were emptied, making
the inner `max` raise (used to exercise the outer exception handler). -/
def stNoLabels : EmotionAnalyzer :=
  { emotions := [], previous_emotions := [], smooth_window := 2,
    emotion_weights := [] }

/-! ### The claims -/

/-- Claim C6: every call leaves the label list, the smoothing window and the
weight table unchanged; the history becomes the old history with the frame's
candidate dominant label pushed (FIFO eviction) whenever the call computes a
candidate, and is untouched otherwise. -/
theorem emotion_claim_C6 (st : EmotionAnalyzer) (img : Option Image)
    (a1 a2 : Option RawResult) :
    ((analyzeEmotion st img a1 a2).2).emotions = st.emotions ∧
    ((analyzeEmotion st img a1 a2).2).smooth_window = st.smooth_window ∧
    ((analyzeEmotion st img a1 a2).2).emotion_weights = st.emotion_weights ∧
    ((analyzeEmotion st img a1 a2).2).previous_emotions =
      (match candidateOf st img a1 a2 with
       | some d => pushHistory st.smooth_window st.previous_emotions d
       | none => st.previous_emotions) := by
  obtain ⟨h1, h2, h3⟩ := analyzeEmotion_preserves st img a1 a2
  exact ⟨h1, h2, h3, analyzeEmotion_history st img a1 a2⟩

/-- Claim C7: an absent (`None`) or empty image yields exactly
`('neutral', 0.0)` with the state untouched, independently of the classifier
oracle (the classifier is never consulted); and if both classifier attempts
fail the result is also exactly `('neutral', 0.0)` with the state untouched. -/
theorem emotion_claim_C7 (st : EmotionAnalyzer) (img : Option Image)
    (im : Image) (a1 a2 : Option RawResult) (hempty : im.size = 0) :
    analyzeEmotion st none a1 a2 = ((neutral, 0), st) ∧
    analyzeEmotion st (some im) a1 a2 = ((neutral, 0), st) ∧
    analyzeEmotion st img none none = ((neutral, 0), st) := by
  refine ⟨?_, ?_, ?_⟩
  · unfold analyzeEmotion
    rw [analyzeInner_img_none]
  · unfold analyzeEmotion
    rw [analyzeInner_img_empty st im a1 a2 hempty]
  · unfold analyzeEmotion
    cases img with
    | none => rw [analyzeInner_img_none]
    | some im2 =>
      by_cases h2 : im2.size = 0
      · rw [analyzeInner_img_empty st im2 none none h2]
      · rw [analyzeInner_no_results st im2 h2]

theorem emotion_claim_C7_witness :
    imgEmpty.size = 0 ∧
    analyzeEmotion .init none (some rZero) (some rZero) = ((neutral, 0), .init) ∧
    analyzeEmotion .init (some imgEmpty) (some rZero) (some rZero) = ((neutral, 0), .init) ∧
    analyzeEmotion .init (some img96) none none = ((neutral, 0), .init) :=
  ⟨rfl, emotion_claim_C7 .init (some img96) imgEmpty (some rZero) (some rZero) rfl⟩

/-- Claim C8: whenever the inner pipeline raises (any unexpected failure),
`analyze_emotion` returns exactly `('neutral', 0.1)` with whatever state the
pipeline had reached — the error never propagates — and the 0.1 confidence is
distinct from the 0.0 of the total-classifier-failure result. -/
theorem emotion_claim_C8 (st : EmotionAnalyzer) (img : Option Image)
    (a1 a2 : Option RawResult) (st2 : EmotionAnalyzer)
    (herr : analyzeInner st img a1 a2 = (none, st2)) :
    analyzeEmotion st img a1 a2 = ((neutral, 1/10), st2) ∧ (1 : ℚ)/10 ≠ 0 := by
  constructor
  · unfold analyzeEmotion
    rw [herr]
  · norm_num

theorem emotion_claim_C8_witness :
    analyzeEmotion stNoLabels (some img96) (some rZero) none =
      ((neutral, 1/10), stNoLabels) ∧ (1 : ℚ)/10 ≠ 0 :=
  emotion_claim_C8 stNoLabels (some img96) (some rZero) none stNoLabels rfl

/-- Claim C9: a non-empty image with height or width below 96 is resized to
exactly 96×96 (never rejected: with a successful attempt the pipeline still
computes a candidate); an image with height and width at least 96 is left
unchanged by the resize step. -/
theorem emotion_claim_C9 (im1 im2 im3 : Image) (st : EmotionAnalyzer)
    (a1 a2 : Option RawResult)
    (hsmall : im1.height < 96 ∨ im1.width < 96)
    (hbig1 : 96 ≤ im2.height) (hbig2 : 96 ≤ im2.width)
    (hstd : st.emotions = stdEmotions) (hsz : im3.size ≠ 0)
    (hres : a1.toList ++ a2.toList ≠ []) :
    resizeMin im1 = { height := 96, width := 96, channels := im1.channels } ∧
    96 ≤ (resizeMin im1).height ∧ 96 ≤ (resizeMin im1).width ∧
    resizeMin im2 = im2 ∧
    ∃ d, candidateOf st (some im3) a1 a2 = some d := by
  have h1 : resizeMin im1 = { height := 96, width := 96, channels := im1.channels } := by
    unfold resizeMin
    rw [if_pos hsmall]
  refine ⟨h1, by rw [h1], by rw [h1], ?_, ?_⟩
  · unfold resizeMin
    rw [if_neg (not_or.mpr ⟨not_lt.mpr hbig1, not_lt.mpr hbig2⟩)]
  · have h7 : weightedEmotions st.emotion_weights
        (avgEmotions st.emotions (a1.toList ++ a2.toList)) ≠ [] := by
      rw [hstd]
      simp [weightedEmotions, avgEmotions, stdEmotions]
    obtain ⟨q, hq⟩ := maxPair_isSome _ h7
    refine ⟨q.1, ?_⟩
    have hres2 : ((a1.toList ++ a2.toList).isEmpty = true) = False := by
      simp [List.isEmpty_iff, hres]
    simp only [candidateOf, hsz, if_false, hres2, hq, Option.map_some']

/-- Small (below-minimum, wider-than-tall) image. -/
def imgSmall : Image := { height := 50, width := 200, channels := 3 }

/-- Tiny non-empty image. -/
def imgTiny : Image := { height := 10, width := 10, channels := 3 }

theorem emotion_claim_C9_witness :
    resizeMin imgSmall = { height := 96, width := 96, channels := imgSmall.channels } ∧
    96 ≤ (resizeMin imgSmall).height ∧ 96 ≤ (resizeMin imgSmall).width ∧
    resizeMin img96 = img96 ∧
    ∃ d, candidateOf .init (some imgTiny) (some rZero) none = some d :=
  emotion_claim_C9 imgSmall img96 imgTiny .init (some rZero) none
    (Or.inl (by decide)) (by decide) (by decide) rfl (by decide)
    (by simp [Option.toList])

/-- Claim C3: the history never exceeds the window W = 2, and eviction is
FIFO: starting from an empty history, three calls whose candidate labels are
A, B, C leave the history exactly [B, C]. -/
theorem emotion_claim_C3 :
    (∀ (st : EmotionAnalyzer) (img : Option Image) (a1 a2 : Option RawResult),
      st.smooth_window = 2 → st.previous_emotions.length ≤ 2 →
      ((analyzeEmotion st img a1 a2).2).previous_emotions.length ≤ 2) ∧
    (∀ (st : EmotionAnalyzer) (img1 img2 img3 : Option Image)
       (a1 b1 a2 b2 a3 b3 : Option RawResult) (A B C : Emotion),
      st.smooth_window = 2 → st.previous_emotions = [] →
      candidateOf st img1 a1 b1 = some A →
      candidateOf ((analyzeEmotion st img1 a1 b1).2) img2 a2 b2 = some B →
      candidateOf ((analyzeEmotion ((analyzeEmotion st img1 a1 b1).2) img2 a2 b2).2)
        img3 a3 b3 = some C →
      ((analyzeEmotion ((analyzeEmotion ((analyzeEmotion st img1 a1 b1).2)
        img2 a2 b2).2) img3 a3 b3).2).previous_emotions = [B, C]) := by
  constructor
  · intro st img a1 a2 hw hlen
    rw [analyzeEmotion_history]
    cases candidateOf st img a1 a2 with
    | none => exact hlen
    | some d =>
      show (pushHistory st.smooth_window st.previous_emotions d).length ≤ 2
      rw [hw]
      exact pushHistory_length_le 2 st.previous_emotions d hlen
  · intro st img1 img2 img3 a1 b1 a2 b2 a3 b3 A B C hw hprev hc1 hc2 hc3
    have hw1 : ((analyzeEmotion st img1 a1 b1).2).smooth_window = 2 := by
      rw [(analyzeEmotion_preserves st img1 a1 b1).2.1, hw]
    have hp1 : ((analyzeEmotion st img1 a1 b1).2).previous_emotions = [A] := by
      rw [analyzeEmotion_history, hc1, hprev, hw]
      rfl
    have hw2 : ((analyzeEmotion ((analyzeEmotion st img1 a1 b1).2)
        img2 a2 b2).2).smooth_window = 2 := by
      rw [(analyzeEmotion_preserves _ img2 a2 b2).2.1, hw1]
    have hp2 : ((analyzeEmotion ((analyzeEmotion st img1 a1 b1).2)
        img2 a2 b2).2).previous_emotions = [A, B] := by
      rw [analyzeEmotion_history, hc2, hp1, hw1]
      rfl
    rw [analyzeEmotion_history, hc3, hp2, hw2]
    rfl

theorem emotion_claim_C3_witness :
    ((analyzeEmotion .init (some img96) (some rSad) none).2).previous_emotions.length ≤ 2 ∧
    ((analyzeEmotion ((analyzeEmotion ((analyzeEmotion .init (some img96)
      (some rAngry) none).2) (some img96) (some rHappy) none).2) (some img96)
      (some rSad) none).2).previous_emotions = [happy, sad] := by
  constructor
  · exact emotion_claim_C3.1 .init (some img96) (some rSad) none rfl (by decide)
  · exact emotion_claim_C3.2 .init (some img96) (some img96) (some img96)
      (some rAngry) none (some rHappy) none (some rSad) none angry happy sad
      rfl rfl
      (by norm_num +decide [candidateOf, analyzeEmotion, analyzeInner,
        avgEmotions, avgVal, getScore, weightedEmotions, weightOf, dictGet,
        maxPair, maxPairAux, pushHistory, smoothedResult, mostCommon,
        firstDedup, neutralOverride, stdEmotions, stdWeights,
        EmotionAnalyzer.init, Image.size, img96, rAngry, rHappy, rSad,
        List.count, Option.toList, enhanceContrast, resizeMin])
      (by norm_num +decide [candidateOf, analyzeEmotion, analyzeInner,
        avgEmotions, avgVal, getScore, weightedEmotions, weightOf, dictGet,
        maxPair, maxPairAux, pushHistory, smoothedResult, mostCommon,
        firstDedup, neutralOverride, stdEmotions, stdWeights,
        EmotionAnalyzer.init, Image.size, img96, rAngry, rHappy, rSad,
        List.count, Option.toList, enhanceContrast, resizeMin])
      (by norm_num +decide [candidateOf, analyzeEmotion, analyzeInner,
        avgEmotions, avgVal, getScore, weightedEmotions, weightOf, dictGet,
        maxPair, maxPairAux, pushHistory, smoothedResult, mostCommon,
        firstDedup, neutralOverride, stdEmotions, stdWeights,
        EmotionAnalyzer.init, Image.size, img96, rAngry, rHappy, rSad,
        List.count, Option.toList, enhanceContrast, resizeMin])

/-! ### Shape of a successful pipeline result -/

theorem analyzeInner_results_empty (st : EmotionAnalyzer) (im : Image)
    (a1 a2 : Option RawResult) (hsz : ¬im.size = 0)
    (hres : (a1.toList ++ a2.toList).isEmpty = true) :
    analyzeInner st (some im) a1 a2 = (some (neutral, 0), st) := by
  simp [analyzeInner, hsz, hres]

theorem analyzeInner_max_none (st : EmotionAnalyzer) (im : Image)
    (a1 a2 : Option RawResult) (hsz : ¬im.size = 0)
    (hres : ¬(a1.toList ++ a2.toList).isEmpty = true)
    (hdom : maxPair (weightedEmotions st.emotion_weights
      (avgEmotions st.emotions (a1.toList ++ a2.toList))) = none) :
    analyzeInner st (some im) a1 a2 = (none, st) := by
  simp [analyzeInner, hsz, hres, hdom]

theorem smoothedResult_shape (emos : List Emotion) (results : List RawResult)
    (dom : Emotion) (hist : List Emotion) (sp : Emotion × ℚ)
    (h : smoothedResult (avgEmotions emos results) dom hist = some sp) :
    ∃ se, sp = (se, avgVal results se / 100) := by
  unfold smoothedResult at h
  cases hmc : mostCommon hist with
  | some se =>
    rw [hmc] at h
    simp only [Option.map_eq_some'] at h
    obtain ⟨c, hc, heq⟩ := h
    have hcv : c = avgVal results se := by
      apply dictGet_map_self (fun e => avgVal results e) emos se c
      exact hc
    exact ⟨se, by rw [← heq, hcv]⟩
  | none =>
    rw [hmc] at h
    simp only [Option.map_eq_some'] at h
    obtain ⟨c, hc, heq⟩ := h
    have hcv : c = avgVal results dom := by
      apply dictGet_map_self (fun e => avgVal results e) emos dom c
      exact hc
    exact ⟨dom, by rw [← heq, hcv]⟩

theorem neutralOverride_shape (emos : List Emotion) (results : List RawResult)
    (sp : Emotion × ℚ) (se : Emotion)
    (hsp : sp = (se, avgVal results se / 100)) :
    ∃ l, neutralOverride (avgEmotions emos results) sp =
      (l, avgVal results l / 100) := by
  unfold neutralOverride
  by_cases hcond : sp.1 = neutral ∧ sp.2 < 6/10
  · rw [if_pos hcond]
    cases hmp : maxPair ((avgEmotions emos results).filter
        (fun p => p.1 ≠ neutral)) with
    | none => exact ⟨se, hsp⟩
    | some nxt =>
      show ∃ l, (if nxt.2 > 20 then (nxt.1, nxt.2 / 100) else sp) =
        (l, avgVal results l / 100)
      by_cases h20 : nxt.2 > 20
      · rw [if_pos h20]
        have hmem := maxPair_mem _ nxt hmp
        have hmem2 := (List.mem_filter.mp hmem).1
        have hval := mem_avgEmotions emos results nxt hmem2
        exact ⟨nxt.1, by rw [← hval]⟩
      · rw [if_neg h20]
        exact ⟨se, hsp⟩
  · rw [if_neg hcond]
    exact ⟨se, hsp⟩

theorem analyzeInner_some_shape (st : EmotionAnalyzer) (im : Image)
    (a1 a2 : Option RawResult) (hsz : ¬im.size = 0)
    (hres : ¬(a1.toList ++ a2.toList).isEmpty = true)
    (p : Emotion × ℚ) (st2 : EmotionAnalyzer)
    (h : analyzeInner st (some im) a1 a2 = (some p, st2)) :
    ∃ l, p = (l, avgVal (a1.toList ++ a2.toList) l / 100) := by
  cases hdom : maxPair (weightedEmotions st.emotion_weights
      (avgEmotions st.emotions (a1.toList ++ a2.toList))) with
  | none =>
    rw [analyzeInner_max_none st im a1 a2 hsz hres hdom] at h
    cases h
  | some dom =>
    rw [analyzeInner_smooth st im a1 a2 hsz hres dom hdom] at h
    have h2 := congrArg Prod.fst h
    simp only at h2
    cases hsm : smoothedResult (avgEmotions st.emotions (a1.toList ++ a2.toList))
        dom.1 (pushHistory st.smooth_window st.previous_emotions dom.1) with
    | none => rw [hsm] at h2; cases h2
    | some sp =>
      rw [hsm] at h2
      simp only [Option.map_some', Option.some.injEq] at h2
      obtain ⟨se, hse⟩ := smoothedResult_shape st.emotions
        (a1.toList ++ a2.toList) dom.1 _ sp hsm
      obtain ⟨l, hl⟩ := neutralOverride_shape st.emotions
        (a1.toList ++ a2.toList) sp se hse
      exact ⟨l, by rw [← h2, hl]⟩

theorem avgVal_div_bounds (results : List RawResult) (hne : results ≠ [])
    (hb : ∀ r ∈ results, ∀ e, 0 ≤ getScore r e ∧ getScore r e ≤ 100)
    (e : Emotion) :
    0 ≤ avgVal results e / 100 ∧ avgVal results e / 100 ≤ 1 := by
  have h0 := avgVal_nonneg results (fun r hr e2 => (hb r hr e2).1) e
  have h100 := avgVal_le_100 results hne (fun r hr e2 => (hb r hr e2).2) e
  constructor
  · exact div_nonneg h0 (by norm_num)
  · rw [div_le_one (by norm_num)]
    exact h100

/-- Claim C1: for every input image and classifier responses whose raw scores
lie in [0,100], `analyze_emotion` returns a label among the 7 emotion labels
and a confidence in [0,1]; being a total function of its inputs, it
propagates no exception. -/
theorem emotion_claim_C1 (st : EmotionAnalyzer) (img : Option Image)
    (a1 a2 : Option RawResult) (h1 : ScoreOk a1) (h2 : ScoreOk a2) :
    (analyzeEmotion st img a1 a2).1.1 ∈ stdEmotions ∧
    0 ≤ (analyzeEmotion st img a1 a2).1.2 ∧
    (analyzeEmotion st img a1 a2).1.2 ≤ 1 := by
  have hb := scoreOk_results a1 a2 h1 h2
  cases img with
  | none =>
    unfold analyzeEmotion
    rw [analyzeInner_img_none]
    exact ⟨mem_stdEmotions _, by norm_num, by norm_num⟩
  | some im =>
    by_cases hsz : im.size = 0
    · unfold analyzeEmotion
      rw [analyzeInner_img_empty st im a1 a2 hsz]
      exact ⟨mem_stdEmotions _, by norm_num, by norm_num⟩
    · by_cases hres : (a1.toList ++ a2.toList).isEmpty = true
      · unfold analyzeEmotion
        rw [analyzeInner_results_empty st im a1 a2 hsz hres]
        exact ⟨mem_stdEmotions _, by norm_num, by norm_num⟩
      · cases hInner : analyzeInner st (some im) a1 a2 with
        | mk ores st2 =>
          cases ores with
          | none =>
            unfold analyzeEmotion
            rw [hInner]
            exact ⟨mem_stdEmotions _, by norm_num, by norm_num⟩
          | some p =>
            unfold analyzeEmotion
            rw [hInner]
            obtain ⟨l, hp⟩ :=
              analyzeInner_some_shape st im a1 a2 hsz hres p st2 hInner
            have hne : a1.toList ++ a2.toList ≠ [] := by
              intro hcon
              rw [hcon] at hres
              exact hres rfl
            obtain ⟨hlo, hhi⟩ :=
              avgVal_div_bounds (a1.toList ++ a2.toList) hne hb l
            rw [hp]
            exact ⟨mem_stdEmotions _, hlo, hhi⟩

theorem emotion_claim_C1_witness :
    (analyzeEmotion .init (some img96) (some rAngry) none).1.1 ∈ stdEmotions ∧
    0 ≤ (analyzeEmotion .init (some img96) (some rAngry) none).1.2 ∧
    (analyzeEmotion .init (some img96) (some rAngry) none).1.2 ≤ 1 :=
  emotion_claim_C1 .init (some img96) (some rAngry) none
    (by
      intro r hr e
      obtain rfl : rAngry = r := Option.some.inj hr
      cases e <;> norm_num [getScore, rAngry])
    (by intro r hr e; cases hr)

theorem smoothedResult_std_isSome (results : List RawResult) (dom : Emotion)
    (hist : List Emotion) :
    ∃ sp, smoothedResult (avgEmotions stdEmotions results) dom hist = some sp := by
  unfold smoothedResult
  cases hmc : mostCommon hist with
  | some se =>
    show ∃ sp, (dictGet (avgEmotions stdEmotions results) se).map
      (fun c => (se, c / 100)) = some sp
    rw [dictGet_avgEmotions_std]
    exact ⟨_, rfl⟩
  | none =>
    show ∃ sp, (dictGet (avgEmotions stdEmotions results) dom).map
      (fun c => (dom, c / 100)) = some sp
    rw [dictGet_avgEmotions_std]
    exact ⟨_, rfl⟩

/-- Claim C10: with the standard 7-label list, the per-frame candidate (the
value appended to the history) is always one of the 7 labels, and the
smoothed-confidence dict lookup always finds its key: whenever an image and at
least one successful attempt are present, the inner pipeline's missing-key
error branch is unreachable (the inner result is always `some`). -/
theorem emotion_claim_C10 (st : EmotionAnalyzer) (im : Image)
    (a1 a2 : Option RawResult) (hstd : st.emotions = stdEmotions)
    (hsz : ¬im.size = 0) (hres : ¬(a1.toList ++ a2.toList).isEmpty = true) :
    (∃ d, candidateOf st (some im) a1 a2 = some d ∧ d ∈ stdEmotions) ∧
    (∃ p st2, analyzeInner st (some im) a1 a2 = (some p, st2)) := by
  have h7 : weightedEmotions st.emotion_weights
      (avgEmotions st.emotions (a1.toList ++ a2.toList)) ≠ [] := by
    rw [hstd]
    simp [weightedEmotions, avgEmotions, stdEmotions]
  obtain ⟨dom, hdom⟩ := maxPair_isSome _ h7
  constructor
  · refine ⟨dom.1, ?_, mem_stdEmotions _⟩
    have hres2 : ((a1.toList ++ a2.toList).isEmpty = true) = False := by
      simp only [eq_iff_iff, iff_false]
      exact hres
    simp only [candidateOf, hsz, if_false, hres2, hdom, Option.map_some']
  · have hsome := smoothedResult_std_isSome (a1.toList ++ a2.toList) dom.1
      (pushHistory st.smooth_window st.previous_emotions dom.1)
    rw [← hstd] at hsome
    obtain ⟨sp, hsp⟩ := hsome
    refine ⟨neutralOverride (avgEmotions st.emotions (a1.toList ++ a2.toList)) sp,
      { st with previous_emotions :=
        pushHistory st.smooth_window st.previous_emotions dom.1 }, ?_⟩
    rw [analyzeInner_smooth st im a1 a2 hsz hres dom hdom, hsp]
    rfl

theorem emotion_claim_C10_witness :
    (∃ d, candidateOf .init (some img96) (some rAngry) none = some d ∧
      d ∈ stdEmotions) ∧
    (∃ p st2, analyzeInner .init (some img96) (some rAngry) none =
      (some p, st2)) :=
  emotion_claim_C10 .init img96 (some rAngry) none rfl (by decide)
    (by simp [Option.toList])

/-- Claim C4: the smoothed label of a call that reaches the smoothing step is
the most frequent label of the updated history: it is a member with maximal
count, and every label encountered earlier (in first-encounter order) has a
strictly smaller count, so ties go to the first label reaching the maximal
count; in particular after a history of two identical labels A, a third call
whose candidate C differs still smooths to A. -/
theorem emotion_claim_C4 :
    (∀ (hist : List Emotion) (m : Emotion), mostCommon hist = some m →
      m ∈ hist ∧ (∀ x ∈ hist, hist.count x ≤ hist.count m) ∧
      ∃ pre post, firstDedup hist = pre ++ m :: post ∧
        ∀ y ∈ pre, hist.count y < hist.count m) ∧
    (∀ (avg : List (Emotion × ℚ)) (dom : Emotion) (hist : List Emotion)
       (se : Emotion) (c : ℚ), hist ≠ [] →
      smoothedResult avg dom hist = some (se, c) →
      mostCommon hist = some se) ∧
    (∀ A C : Emotion, C ≠ A → mostCommon (pushHistory 2 [A, A] C) = some A) := by
  refine ⟨?_, ?_, ?_⟩
  · intro hist m h
    exact ⟨mostCommon_mem hist m h, mostCommon_count_ge hist m h,
      mostCommon_first hist m h⟩
  · intro avg dom hist se c hne h
    obtain ⟨m, hm⟩ := mostCommon_isSome hist hne
    unfold smoothedResult at h
    rw [hm] at h
    have h2 : (dictGet avg m).map (fun c0 => (m, c0 / 100)) = some (se, c) := h
    simp only [Option.map_eq_some'] at h2
    obtain ⟨c0, -, heq⟩ := h2
    rw [hm, (Prod.mk.injEq _ _ _ _).mp heq |>.1]
  · decide

theorem emotion_claim_C4_witness :
    (happy ∈ pushHistory 2 [happy, happy] sad ∧
      (∀ x ∈ pushHistory 2 [happy, happy] sad,
        (pushHistory 2 [happy, happy] sad).count x ≤
          (pushHistory 2 [happy, happy] sad).count happy) ∧
      ∃ pre post, firstDedup (pushHistory 2 [happy, happy] sad) =
          pre ++ happy :: post ∧
        ∀ y ∈ pre, (pushHistory 2 [happy, happy] sad).count y <
          (pushHistory 2 [happy, happy] sad).count happy) ∧
    mostCommon [angry, happy] = some angry ∧
    mostCommon (pushHistory 2 [happy, happy] sad) = some happy := by
  refine ⟨?_, ?_, ?_⟩
  · exact emotion_claim_C4.1 (pushHistory 2 [happy, happy] sad) happy (by decide)
  · exact emotion_claim_C4.2.1 (avgEmotions stdEmotions [rZero]) angry
      [angry, happy] angry (avgVal [rZero] angry / 100) (by decide)
      (by norm_num +decide [smoothedResult, mostCommon, firstDedup, maxPair,
        maxPairAux, dictGet, avgEmotions, avgVal, getScore, stdEmotions,
        rZero, List.count])
  · exact emotion_claim_C4.2.2 happy sad (by decide)

/-- A classifier response with sad = happy = 50 and all other scores 0. -/
def rFifty : RawResult := fun e =>
  match e with
  | sad => some 50
  | happy => some 50
  | _ => some 0

/-- Claim C5: the sensitivity weights influence only the per-frame dominant
pick; the confidence of every successful result equals the unweighted
averaged score of the returned label divided by 100.  In particular with
averaged scores sad = happy = 50 (weights sad = 1.2, happy = 0.9) the dominant
pick is `sad` and the reported confidence is the unweighted 0.50, not 0.60. -/
theorem emotion_claim_C5 (st : EmotionAnalyzer) (im : Image)
    (a1 a2 : Option RawResult) (p : Emotion × ℚ) (st2 : EmotionAnalyzer)
    (hsz : ¬im.size = 0) (hres : ¬(a1.toList ++ a2.toList).isEmpty = true)
    (h : analyzeInner st (some im) a1 a2 = (some p, st2)) :
    p.2 = avgVal (a1.toList ++ a2.toList) p.1 / 100 ∧
    candidateOf .init (some img96) (some rFifty) none = some sad ∧
    analyzeEmotion .init (some img96) (some rFifty) none =
      ((sad, 1/2), { EmotionAnalyzer.init with previous_emotions := [sad] }) := by
  refine ⟨?_, ?_, ?_⟩
  · obtain ⟨l, hp⟩ := analyzeInner_some_shape st im a1 a2 hsz hres p st2 h
    rw [hp]
  · norm_num +decide [candidateOf, avgEmotions, avgVal, getScore,
      weightedEmotions, weightOf, dictGet, maxPair, maxPairAux, stdEmotions,
      stdWeights, EmotionAnalyzer.init, Image.size, img96, rFifty,
      Option.toList]
  · norm_num +decide [analyzeEmotion, analyzeInner, avgEmotions, avgVal,
      getScore, weightedEmotions, weightOf, dictGet, maxPair, maxPairAux,
      pushHistory, smoothedResult, mostCommon, firstDedup, neutralOverride,
      stdEmotions, stdWeights, EmotionAnalyzer.init, Image.size, img96,
      rFifty, List.count, Option.toList, enhanceContrast, resizeMin]

theorem emotion_claim_C5_witness :
    (1 : ℚ)/2 =
      avgVal ((some rFifty).toList ++ (none : Option RawResult).toList) sad / 100 ∧
    candidateOf .init (some img96) (some rFifty) none = some sad ∧
    analyzeEmotion .init (some img96) (some rFifty) none =
      ((sad, 1/2), { EmotionAnalyzer.init with previous_emotions := [sad] }) :=
  emotion_claim_C5 .init img96 (some rFifty) none (sad, 1/2)
    { EmotionAnalyzer.init with previous_emotions := [sad] }
    (by decide) (by simp [Option.toList])
    (by norm_num +decide [analyzeInner, avgEmotions, avgVal, getScore,
      weightedEmotions, weightOf, dictGet, maxPair, maxPairAux, pushHistory,
      smoothedResult, mostCommon, firstDedup, neutralOverride, stdEmotions,
      stdWeights, EmotionAnalyzer.init, Image.size, img96, rFifty,
      List.count, Option.toList, enhanceContrast, resizeMin])

/-- Claim C2: for a call whose smoothed label is `neutral` with smoothed
confidence below 0.6: if some non-neutral averaged score exceeds 20 the call
returns the maximal non-neutral averaged label with confidence equal to that
label's unweighted averaged score over 100, the history still updated with
the pre-override candidate; if no non-neutral averaged score exceeds 20, the
smoothed `(neutral, confidence)` pair is returned unchanged. -/
theorem emotion_claim_C2 (st : EmotionAnalyzer) (im : Image)
    (a1 a2 : Option RawResult) (dom : Emotion × ℚ) (sc : ℚ)
    (hstd : st.emotions = stdEmotions) (hsz : ¬im.size = 0)
    (hres : ¬(a1.toList ++ a2.toList).isEmpty = true)
    (hdom : maxPair (weightedEmotions st.emotion_weights
      (avgEmotions st.emotions (a1.toList ++ a2.toList))) = some dom)
    (hsm : smoothedResult (avgEmotions st.emotions (a1.toList ++ a2.toList))
      dom.1 (pushHistory st.smooth_window st.previous_emotions dom.1) =
      some (neutral, sc))
    (hlow : sc < 6/10) :
    ∃ nxt, maxPair ((avgEmotions st.emotions (a1.toList ++ a2.toList)).filter
        (fun p => p.1 ≠ neutral)) = some nxt ∧
      ((∃ e, e ≠ neutral ∧ 20 < avgVal (a1.toList ++ a2.toList) e) →
        analyzeEmotion st (some im) a1 a2 =
          ((nxt.1, nxt.2 / 100), { st with previous_emotions := pushHistory st.smooth_window st.previous_emotions dom.1 })) ∧
      ((∀ e, e ≠ neutral → avgVal (a1.toList ++ a2.toList) e ≤ 20) →
        analyzeEmotion st (some im) a1 a2 =
          ((neutral, sc), { st with previous_emotions := pushHistory st.smooth_window st.previous_emotions dom.1 })) := by
  have hfilter : (avgEmotions st.emotions (a1.toList ++ a2.toList)).filter
      (fun p => p.1 ≠ neutral) =
      [angry, disgust, fear, happy, sad, surprise].map
        (fun e => (e, avgVal (a1.toList ++ a2.toList) e)) := by
    rw [hstd]
    exact filter_avgEmotions_std _
  have hfne : (avgEmotions st.emotions (a1.toList ++ a2.toList)).filter
      (fun p => p.1 ≠ neutral) ≠ [] := by
    rw [hfilter]
    simp
  obtain ⟨nxt, hnxt⟩ := maxPair_isSome _ hfne
  have hcall : analyzeEmotion st (some im) a1 a2 =
      (neutralOverride (avgEmotions st.emotions (a1.toList ++ a2.toList))
        (neutral, sc),
       { st with previous_emotions := pushHistory st.smooth_window st.previous_emotions dom.1 }) := by
    unfold analyzeEmotion
    rw [analyzeInner_smooth st im a1 a2 hsz hres dom hdom, hsm]
    rfl
  have hover : neutralOverride
      (avgEmotions st.emotions (a1.toList ++ a2.toList)) (neutral, sc) =
      (if nxt.2 > 20 then (nxt.1, nxt.2 / 100) else (neutral, sc)) := by
    unfold neutralOverride
    rw [if_pos ⟨rfl, hlow⟩, hnxt]
  refine ⟨nxt, hnxt, ?_, ?_⟩
  · rintro ⟨e, hene, h20e⟩
    have hememb : (e, avgVal (a1.toList ++ a2.toList) e) ∈
        (avgEmotions st.emotions (a1.toList ++ a2.toList)).filter
          (fun p => p.1 ≠ neutral) := by
      rw [hfilter]
      apply List.mem_map_of_mem
      cases e <;> simp_all
    have hle := maxPair_ge _ nxt hnxt _ hememb
    have h20 : nxt.2 > 20 := lt_of_lt_of_le h20e hle
    rw [hcall, hover, if_pos h20]
  · intro hall
    have hmem := maxPair_mem _ nxt hnxt
    rw [hfilter] at hmem
    simp only [List.mem_map] at hmem
    obtain ⟨e, he6, heq⟩ := hmem
    have hene : e ≠ neutral := by
      intro hcon
      rw [hcon] at he6
      simp at he6
    have h2 : nxt.2 = avgVal (a1.toList ++ a2.toList) e := by rw [← heq]
    have hnot : ¬nxt.2 > 20 := by
      rw [h2]
      exact not_lt.mpr (hall e hene)
    rw [hcall, hover, if_neg hnot]

/-- The spec's neutral-override scenario: neutral 55, sad 25, others 5. -/
def rC2 : RawResult := fun e =>
  match e with
  | neutral => some 55
  | sad => some 25
  | _ => some 5

/-- A freshly constructed analyzer that has already seen one neutral frame. -/
def stC2 : EmotionAnalyzer :=
  { EmotionAnalyzer.init with previous_emotions := [neutral] }

theorem emotion_claim_C2_witness :
    analyzeEmotion stC2 (some img96) (some rC2) none =
      ((sad, 1/4), { stC2 with previous_emotions := [neutral, neutral] }) := by
  obtain ⟨nxt, hnxt, hA, -⟩ := emotion_claim_C2 stC2 img96 (some rC2) none
    (neutral, 44) (11/20) rfl (by decide) (by simp [Option.toList])
    (by norm_num +decide [avgEmotions, avgVal, getScore, weightedEmotions,
      weightOf, dictGet, maxPair, maxPairAux, stdEmotions, stdWeights,
      EmotionAnalyzer.init, stC2, rC2, Option.toList])
    (by norm_num +decide [smoothedResult, mostCommon, firstDedup, maxPair,
      maxPairAux, dictGet, avgEmotions, avgVal, getScore, pushHistory,
      stdEmotions, EmotionAnalyzer.init, stC2, rC2, List.count,
      Option.toList])
    (by norm_num)
  have hnxtval : nxt = (sad, 25) := by
    have hcomp : maxPair ((avgEmotions stC2.emotions ((some rC2).toList ++
        (none : Option RawResult).toList)).filter
          (fun p => p.1 ≠ neutral)) = some (sad, 25) := by
      norm_num +decide [avgEmotions, avgVal, getScore, maxPair, maxPairAux,
        stdEmotions, EmotionAnalyzer.init, stC2, rC2, Option.toList]
    rw [hcomp] at hnxt
    exact (Option.some.inj hnxt).symm
  have hres := hA ⟨sad, by decide,
    by norm_num [avgVal, getScore, rC2, Option.toList]⟩
  rw [hnxtval] at hres
  rw [show ((25 : ℚ)/100) = 1/4 by norm_num] at hres
  exact hres
